import Mathlib

/-!
Verification of `factoring_55.py`, a fixed Qiskit script that builds a
10-qubit Shor-style period-finding circuit for the modulus 55 (base 12),
simulates it and post-processes the measured counts.

A circuit is shallowly embedded as the list of instructions appended to it;
each circuit-building Python function becomes a Lean function from the
circuit built so far to the extended circuit.  The `cp` angle is the exact
rational multiple of pi appearing in the source, stored as a
numerator/denominator pair (`cp num den c t` stands for `cp(num*pi/den, c, t)`).
-/

namespace Factoring55

/-- One instruction of a Qiskit circuit, restricted to the instruction kinds
this script uses. -/
inductive Gate where
  | x : Nat → Gate
  | h : Nat → Gate
  | cx : Nat → Nat → Gate
  | ccx : Nat → Nat → Nat → Gate
  | cp : Int → Nat → Nat → Nat → Gate
  | swap : Nat → Nat → Gate
  | barrier : Gate
  | measure : Nat → Nat → Gate
  deriving DecidableEq

/-- `create_quantum_registers(num_qubits, num_classical)`: a quantum register
of `num_qubits` qubits, a classical register of `num_classical` bits, and an
empty circuit over them.  Registers are modelled by their sizes. -/
def create_quantum_registers (num_qubits num_classical : Nat) :
    Nat × Nat × List Gate :=
  (num_qubits, num_classical, [])

/-- `initialize_circuit`: `x(q[0])`, then `h(q[i])` for `i in range(6, 10)`,
then a barrier, appended to the given circuit. -/
def initialize_circuit (circuit : List Gate) : List Gate :=
  circuit ++ [Gate.x 0] ++ (List.range' 6 4).map Gate.h ++ [Gate.barrier]

/-- `apply_controlled_operations`: the hardcoded controlled-U^(2^0) and
controlled-U^(2^1) blocks, appended to the given circuit. -/
def apply_controlled_operations (circuit : List Gate) : List Gate :=
  circuit ++
    [Gate.cx 6 3, Gate.cx 6 2, Gate.cx 6 0, Gate.barrier,
     Gate.cx 7 0, Gate.cx 7 1, Gate.ccx 7 2 3, Gate.ccx 7 2 4,
     Gate.x 4, Gate.ccx 7 4 5, Gate.x 4, Gate.barrier]

/-- `apply_inverse_qft`: swaps followed by the Hadamard / controlled-phase
cascade with angles `-pi/2`, `-pi/4`, `-pi/8`, appended to the circuit. -/
def apply_inverse_qft (circuit : List Gate) : List Gate :=
  circuit ++
    [Gate.swap 7 8, Gate.swap 6 9,
     Gate.h 6, Gate.cp (-1) 2 6 7,
     Gate.h 7, Gate.cp (-1) 4 6 8, Gate.cp (-1) 2 7 8,
     Gate.h 8, Gate.cp (-1) 8 6 9, Gate.cp (-1) 4 7 9, Gate.cp (-1) 2 8 9,
     Gate.h 9, Gate.barrier]

/-- `measure_circuit`: `measure(q[i+6], c[i])` for `i in range(4)`. -/
def measure_circuit (circuit : List Gate) : List Gate :=
  circuit ++ (List.range 4).map (fun i => Gate.measure (i + 6) i)

/-- The full circuit built by `main` before it is run. -/
def main_circuit : List Gate :=
  measure_circuit (apply_inverse_qft (apply_controlled_operations
    (initialize_circuit (create_quantum_registers 10 4).2.2)))

section ClassicalSemantics

/-- Classical (computational-basis) semantics of a single instruction: the
state is the list of qubit values, and only the classical reversible
instructions `x`, `cx`, `ccx`, `swap` (and `barrier`) have such semantics. -/
def stepC (g : Gate) (s : List Bool) : Option (List Bool) :=
  match g with
  | Gate.x t => some (s.set t (!(s.getD t false)))
  | Gate.cx c t => some (s.set t (xor (s.getD t false) (s.getD c false)))
  | Gate.ccx c1 c2 t =>
      some (s.set t (xor (s.getD t false) ((s.getD c1 false) && (s.getD c2 false))))
  | Gate.swap a b => some ((s.set a (s.getD b false)).set b (s.getD a false))
  | Gate.barrier => some s
  | _ => none

/-- Run a gate list classically. -/
def runC : List Gate → List Bool → Option (List Bool)
  | [], s => some s
  | g :: l, s =>
    match stepC g s with
    | none => none
    | some s1 => runC l s1

/-- The state after `initialize_circuit`'s `x(q[0])`, with the counting
qubits 6 and 7 given classical values `k0` and `k1`: the work register
(qubits 0-5) holds the value 1. -/
def initWork (k0 k1 : Bool) : List Bool :=
  [true, false, false, false, false, false, k0, k1, false, false]

/-- The value encoded in the work register, qubit 0 least significant. -/
def workValue (s : List Bool) : Nat :=
  (List.range 6).foldl (fun a i => a + (if s.getD i false then 2 ^ i else 0)) 0

/-- The qubit operands (controls and targets) of an instruction. -/
def Gate.operands : Gate → List Nat
  | Gate.x t => [t]
  | Gate.h t => [t]
  | Gate.cx c t => [c, t]
  | Gate.ccx c1 c2 t => [c1, c2, t]
  | Gate.cp _ _ c t => [c, t]
  | Gate.swap a b => [a, b]
  | Gate.barrier => []
  | Gate.measure q _ => [q]

end ClassicalSemantics

section UnitarySemantics

/-!
All phases occurring in `apply_inverse_qft` are integer powers of
`zeta = exp(-i*pi/8)`, a primitive 16th root of unity, and every entry of the
Hadamard matrix is `(1/sqrt 2) * (a power of zeta)`.  Since each of the 16
basis-state columns passes through exactly four Hadamards, the circuit's
unitary is `(1/4)` times a matrix with entries in `ZZ[zeta]`.  An amplitude
(times 4) is represented as an integer combination of `zeta^0 .. zeta^15`
(`Amp`), compared after reduction by the relation `zeta^8 = -1` (`canon`).
-/

/-- An element of the group ring `ZZ[Z/16]`: coefficients of
`zeta^0, ..., zeta^15`. -/
def Amp := Fin 16 → ℤ

def ampAdd (a b : Amp) : Amp := fun i => a i + b i

def ampNeg (a : Amp) : Amp := fun i => -a i

/-- The monomial `zeta^m`. -/
def unitAmp (m : Nat) : Amp := fun i => if i.val = m % 16 then 1 else 0

/-- Multiplication by `zeta^e`: a cyclic shift of coefficients. -/
def mulZeta (e : Nat) (a : Amp) : Amp := fun i => a (i - (Fin.ofNat' 16 e))

/-- Reduce an `Amp` by `zeta^8 = -1`, giving coefficients over
`zeta^0 .. zeta^7`; two `Amp`s denote the same complex number iff their
reductions agree. -/
def canon (a : Amp) : Fin 8 → ℤ := fun j =>
  a ⟨j.val, by omega⟩ - a ⟨j.val + 8, by omega⟩

/-- The reduced coefficients as a list, for decidable comparison. -/
def canonList (a : Amp) : List ℤ :=
  (List.range 8).map (fun j => a (Fin.ofNat' 16 j) - a (Fin.ofNat' 16 (j + 8)))

/-- A 4-qubit state on the counting register, scaled as described above:
basis index `k` (qubit 6 is bit 0 of `k`) maps to its amplitude. -/
def QState := Nat → Amp

/-- Hadamard on local bit `b` (scaled by `sqrt 2`). -/
def applyH (b : Nat) (s : QState) : QState := fun k =>
  if Nat.testBit k b then ampAdd (s (k ^^^ (1 <<< b))) (ampNeg (s k))
  else ampAdd (s k) (s (k ^^^ (1 <<< b)))

/-- Controlled phase `zeta^e` between local bits `c` and `t`. -/
def applyCP (e : Nat) (c t : Nat) (s : QState) : QState := fun k =>
  if Nat.testBit k c && Nat.testBit k t then mulZeta e (s k) else s k

/-- Swap of local bits `a` and `b`. -/
def applySwap (a b : Nat) (s : QState) : QState := fun k =>
  if Nat.testBit k a ≠ Nat.testBit k b then s ((k ^^^ (1 <<< a)) ^^^ (1 <<< b))
  else s k

/-- The power of `zeta` equal to the phase `exp(i * num * pi / den)`,
when it is one: `exp(i*theta*pi) = zeta^e` iff `-8*num/den = e (mod 16)`. -/
def phasePower (num : Int) (den : Nat) : Option Nat :=
  if den ≠ 0 ∧ ((-8) * num) % (den : Int) = 0 then
    some ((((-8) * num / (den : Int)) % 16).toNat % 16)
  else none

/-- Unitary semantics of one instruction on the counting register
(qubits 6-9, local bits 0-3); instructions touching other qubits, or
measurements, have no such semantics. -/
def stepU (g : Gate) (s : QState) : Option QState :=
  match g with
  | Gate.h q => if 6 ≤ q ∧ q < 10 then some (applyH (q - 6) s) else none
  | Gate.cp num den c t =>
      if 6 ≤ c ∧ c < 10 ∧ 6 ≤ t ∧ t < 10 then
        match phasePower num den with
        | some e => some (applyCP e (c - 6) (t - 6) s)
        | none => none
      else none
  | Gate.swap a b =>
      if 6 ≤ a ∧ a < 10 ∧ 6 ≤ b ∧ b < 10 then
        some (applySwap (a - 6) (b - 6) s)
      else none
  | Gate.barrier => some s
  | _ => none

/-- Run a gate list as a unitary on the counting register. -/
def runU : List Gate → QState → Option QState
  | [], s => some s
  | g :: l, s =>
    match stepU g s with
    | none => none
    | some s1 => runU l s1

/-- The basis state `|j>` of the counting register. -/
def basisState (j : Nat) : QState := fun k =>
  if k = j then unitAmp 0 else fun _ => 0

/-- The column of the 4-qubit inverse Fourier transform at basis input `j`,
scaled by 4: entry `k` is `zeta^(j*k) = exp(-2*pi*i*j*k/16)`. -/
def invQFTcolumn (j : Nat) : Nat → Amp := fun k => unitAmp (j * k)

end UnitarySemantics

section PostProcessing

/-- `binary_state.replace(" ", "")`: the characters of the key with spaces
removed. -/
def stripSpaces (s : String) : List Char :=
  s.data.filter (fun c => c ≠ ' ')

/-- The digit value `int(s, 2)` assigns to one character (a digit other
than `'1'` counts 0; `int2` only applies this to `'0'` and `'1'`). -/
def bitVal (c : Char) : Nat := if c = '1' then 1 else 0

/-- The numeric value of a list of binary digit characters, most significant
first, as accumulated by Python's `int(s, 2)`. -/
def binVal (l : List Char) : Nat :=
  l.foldl (fun a c => 2 * a + bitVal c) 0

/-- Python's `int(s, 2)`: fails on an empty string or a non-binary digit. -/
def int2 (l : List Char) : Option Nat :=
  if l ≠ [] ∧ ∀ c ∈ l, c = '0' ∨ c = '1' then some (binVal l) else none

/-- Little-endian decimal digits of `n`, with fuel for structural
recursion. -/
def decAux : Nat → Nat → List Char
  | 0, _ => []
  | fuel + 1, n => if n = 0 then [] else Nat.digitChar (n % 10) :: decAux fuel (n / 10)

/-- Python's `str` on a natural number. -/
def natToDecStr (n : Nat) : String :=
  String.mk (if n = 0 then ['0'] else (decAux n n).reverse)

/-- The key-sorting relation of `sorted(..., key=lambda item: -item[1])`:
counts in non-increasing order. -/
def countGE (a b : String × Nat) : Prop := b.2 ≤ a.2

instance : DecidableRel countGE := fun a b => Nat.decLe b.2 a.2

instance : IsTotal (String × Nat) countGE :=
  ⟨fun a b => Nat.le_total b.2 a.2⟩

instance : IsTrans (String × Nat) countGE :=
  ⟨fun _ _ _ hab hbc => Nat.le_trans hbc hab⟩

/-- `d[k] = v` on a Python dict: overwrite in place if the key is present,
else append.  A Python dict is modelled as an insertion-ordered association
list. -/
def dictSet (d : List (String × Nat)) (k : String) (v : Nat) :
    List (String × Nat) :=
  if k ∈ d.map Prod.fst then
    d.map (fun p => if p.1 = k then (p.1, v) else p)
  else d ++ [(k, v)]

/-- The dict built from a list of key/value pairs, first pair first. -/
def dictOfPairs (l : List (String × Nat)) : List (String × Nat) :=
  l.foldl (fun d p => dictSet d p.1 p.2) []

/-- `dict(sorted(counts_ideal.items(), key=lambda item: -item[1]))`:
Python's `sorted` is a stable sort. -/
def sortedCounts (counts : List (String × Nat)) : List (String × Nat) :=
  dictOfPairs (List.insertionSort countGE counts)

/-- The conversion loop of `run_simulation`: for each `(binary_state, count)`
in order, set `decimal_counts[str(int(binary_state.replace(" ",""), 2))] =
count`; a `ValueError` from `int` aborts the run. -/
def buildDict (d : List (String × Nat)) :
    List (String × Nat) → Option (List (String × Nat))
  | [] => some d
  | p :: rest =>
    match int2 (stripSpaces p.1) with
    | none => none
    | some n => buildDict (dictSet d (natToDecStr n) p.2) rest

/-- `run_simulation`, parameterised by the counts dictionary the simulator
returns: sort by decreasing count, then convert keys to decimal strings. -/
def run_simulation (counts_ideal : List (String × Nat)) :
    Option (List (String × Nat)) :=
  buildDict [] (sortedCounts counts_ideal)

/-- The decimal-string key that the conversion assigns to a raw outcome
key. -/
def convKey (s : String) : String := natToDecStr (binVal (stripSpaces s))

end PostProcessing

section Pipeline

/-- The externally visible actions of the script. -/
inductive Effect where
  | runSim : List Gate → Effect
  | drawCircuit : List Gate → Effect
  | showPlot : List (String × Nat) → Effect
  deriving DecidableEq

/-- `visualize_results`: draw the circuit, then show the histogram of the
processed counts. -/
def visualize_results (circuit : List Gate)
    (decimal_counts : List (String × Nat)) : List Effect :=
  [Effect.drawCircuit circuit, Effect.showPlot decimal_counts]

/-- `main`, parameterised by the counts dictionary the simulator returns for
the built circuit: build the circuit stage by stage, run the simulation,
then visualize.  The result is the processed counts together with the trace
of external effects, or `none` if the post-processing raises. -/
def main (simCounts : List (String × Nat)) :
    Option (List (String × Nat) × List Effect) :=
  let r := create_quantum_registers 10 4
  let c1 := initialize_circuit r.2.2
  let c2 := apply_controlled_operations c1
  let c3 := apply_inverse_qft c2
  let c4 := measure_circuit c3
  match run_simulation simCounts with
  | none => none
  | some results =>
    some (results, Effect.runSim c4 :: visualize_results c4 results)

end Pipeline

section SpecificationHelpers

/-- Left inverse of `Nat.digitChar` on decimal digits. -/
def undigit (c : Char) : Nat := c.toNat - 48

/-- The value denoted by a little-endian list of decimal digit characters. -/
def undigitsVal : List Char → Nat
  | [] => 0
  | c :: l => undigit c + 10 * undigitsVal l

/-- The pair mapped over the sorted counts by the conversion loop. -/
def convPair (p : String × Nat) : String × Nat := (convKey p.1, p.2)

/-- The processed counts list `run_simulation` returns on a well-formed
input: the input sorted by decreasing count, keys converted to decimal. -/
def convertedCounts (counts : List (String × Nat)) : List (String × Nat) :=
  (List.insertionSort countGE counts).map convPair

/-- The counts dictionary the simulator returns is well-formed for digit
width `n`: every key, with spaces removed, is a nonempty string of binary
digits of length `n`, and distinct keys stay distinct after removing
spaces. -/
def WellFormedCounts (counts : List (String × Nat)) (n : Nat) : Prop :=
  0 < n ∧
  (∀ p ∈ counts, (stripSpaces p.1).length = n ∧
    ∀ c ∈ stripSpaces p.1, c = '0' ∨ c = '1') ∧
  (counts.map (fun p => stripSpaces p.1)).Nodup

instance : ∀ counts n, Decidable (WellFormedCounts counts n) := by
  intro counts n
  unfold WellFormedCounts
  infer_instance

/-- Whether an instruction is a measurement. -/
def isMeasure (g : Gate) : Bool :=
  match g with
  | Gate.measure _ _ => true
  | _ => false

/-- The gate kinds the specification names for the circuit-building stages:
`cx`, `ccx`, `cp`, `h`, `swap`, plus barriers and measurements. -/
def ClaimedGateKind (g : Gate) : Prop :=
  (∃ c t, g = Gate.cx c t) ∨ (∃ c1 c2 t, g = Gate.ccx c1 c2 t) ∨
  (∃ num den c t, g = Gate.cp num den c t) ∨ (∃ t, g = Gate.h t) ∨
  (∃ a b, g = Gate.swap a b) ∨ g = Gate.barrier ∨ (∃ q c, g = Gate.measure q c)

end SpecificationHelpers

section DecimalLemmas

theorem undigit_digitChar : ∀ d : Fin 10, undigit (Nat.digitChar d.val) = d.val := by
  decide

theorem undigitsVal_decAux : ∀ fuel n, n ≤ fuel → undigitsVal (decAux fuel n) = n := by
  intro fuel
  induction fuel with
  | zero => intro n hn; interval_cases n; simp [decAux, undigitsVal]
  | succ fuel ih =>
    intro n hn
    by_cases h0 : n = 0
    · simp [decAux, h0, undigitsVal]
    · have hdiv : n / 10 ≤ fuel := by
        have : n / 10 < n := Nat.div_lt_self (Nat.pos_of_ne_zero h0) (by omega)
        omega
      have hu : undigit (Nat.digitChar (n % 10)) = n % 10 :=
        undigit_digitChar ⟨n % 10, Nat.mod_lt _ (by omega)⟩
      simp only [decAux, h0, if_false, undigitsVal, ih _ hdiv, hu]
      omega

theorem natToDecStr_inj {n m : Nat} (h : natToDecStr n = natToDecStr m) : n = m := by
  have hd : (if n = 0 then ['0'] else (decAux n n).reverse) =
      (if m = 0 then ['0'] else (decAux m m).reverse) := by
    have := congrArg String.data h
    simpa [natToDecStr] using this
  have key : ∀ k : Nat, k ≠ 0 → (decAux k k).reverse ≠ ['0'] := by
    intro k hk hrev
    have : decAux k k = ['0'] := by
      have := congrArg List.reverse hrev
      simpa using this
    have hv := undigitsVal_decAux k k le_rfl
    rw [this] at hv
    simp [undigitsVal, undigit] at hv
    omega
  by_cases hn : n = 0 <;> by_cases hm : m = 0
  · omega
  · rw [if_pos hn, if_neg hm] at hd; exact absurd hd.symm (key m hm)
  · rw [if_neg hn, if_pos hm] at hd; exact absurd hd (key n hn)
  · rw [if_neg hn, if_neg hm] at hd
    have : decAux n n = decAux m m := by
      have := congrArg List.reverse hd
      simpa using this
    have h1 := undigitsVal_decAux n n le_rfl
    have h2 := undigitsVal_decAux m m le_rfl
    rw [this] at h1
    omega

end DecimalLemmas

section BinaryLemmas

theorem foldl_bin_decomp : ∀ (l : List Char) (a : Nat),
    l.foldl (fun a c => 2 * a + bitVal c) a = a * 2 ^ l.length + binVal l := by
  intro l
  induction l with
  | nil => intro a; simp [binVal]
  | cons c t ih =>
    intro a
    have hbv : binVal (c :: t) = bitVal c * 2 ^ t.length + binVal t := by
      show List.foldl _ (2 * 0 + bitVal c) t = _
      rw [ih (2 * 0 + bitVal c)]
      ring_nf
    show List.foldl _ (2 * a + bitVal c) t = _
    rw [ih (2 * a + bitVal c), hbv]
    simp [List.length_cons, pow_succ]
    ring

theorem binVal_cons (c : Char) (t : List Char) :
    binVal (c :: t) = bitVal c * 2 ^ t.length + binVal t := by
  show List.foldl _ (2 * 0 + bitVal c) t = _
  rw [foldl_bin_decomp t (2 * 0 + bitVal c)]
  ring_nf

theorem binVal_lt (l : List Char) : binVal l < 2 ^ l.length := by
  induction l with
  | nil => simp [binVal]
  | cons c t ih =>
    have hb : bitVal c ≤ 1 := by unfold bitVal; split <;> omega
    rw [binVal_cons]
    have hp : 2 ^ (c :: t).length = 2 ^ t.length + 2 ^ t.length := by
      simp [List.length_cons, pow_succ]; ring
    have h2 : bitVal c * 2 ^ t.length ≤ 2 ^ t.length :=
      le_trans (Nat.mul_le_mul_right _ hb) (by omega)
    omega

theorem binVal_inj : ∀ (l1 l2 : List Char), l1.length = l2.length →
    (∀ c ∈ l1, c = '0' ∨ c = '1') → (∀ c ∈ l2, c = '0' ∨ c = '1') →
    binVal l1 = binVal l2 → l1 = l2 := by
  intro l1
  induction l1 with
  | nil =>
    intro l2 hlen _ _ _
    cases l2 with
    | nil => rfl
    | cons c t => simp at hlen
  | cons c1 t1 ih =>
    intro l2 hlen hb1 hb2 hv
    cases l2 with
    | nil => simp at hlen
    | cons c2 t2 =>
      have hlen' : t1.length = t2.length := by simpa using hlen
      rw [binVal_cons, binVal_cons, hlen'] at hv
      have hl1 := binVal_lt t1
      have hl2 := binVal_lt t2
      rw [hlen'] at hl1
      have hc1 := hb1 c1 (by simp)
      have hc2 := hb2 c2 (by simp)
      have e0 : bitVal '0' = 0 := rfl
      have e1 : bitVal '1' = 1 := rfl
      have hbits : bitVal c1 = bitVal c2 ∧ binVal t1 = binVal t2 := by
        generalize (2 : Nat) ^ t2.length = N at hv hl1 hl2
        rcases hc1 with rfl | rfl <;> rcases hc2 with rfl | rfl <;>
          simp only [e0, e1] at hv <;>
          exact ⟨by first | rfl | (exfalso; omega), by omega⟩
      have hchar : c1 = c2 := by
        rcases hc1 with rfl | rfl <;> rcases hc2 with rfl | rfl <;>
          first | rfl | (exact absurd hbits.1 (by decide))
      have htail : t1 = t2 :=
        ih t2 hlen' (fun c hc => hb1 c (by simp [hc]))
          (fun c hc => hb2 c (by simp [hc])) hbits.2
      rw [hchar, htail]

end BinaryLemmas

section DictLemmas

theorem dictSet_not_mem {d : List (String × Nat)} {k : String} {v : Nat}
    (h : k ∉ d.map Prod.fst) : dictSet d k v = d ++ [(k, v)] := by
  simp [dictSet, h]

theorem foldl_dictSet_append : ∀ (l d : List (String × Nat)),
    ((d ++ l).map Prod.fst).Nodup →
    l.foldl (fun d p => dictSet d p.1 p.2) d = d ++ l := by
  intro l
  induction l with
  | nil => intro d _; simp
  | cons p rest ih =>
    intro d hnd
    have hk : p.1 ∉ d.map Prod.fst := by
      rw [List.map_append, List.nodup_append] at hnd
      intro hmem
      exact hnd.2.2 hmem (by simp)
    show rest.foldl _ (dictSet d p.1 p.2) = _
    rw [dictSet_not_mem hk]
    have hnd' : (((d ++ [p]) ++ rest).map Prod.fst).Nodup := by
      rw [← List.append_cons]
      simpa using hnd
    rw [ih (d ++ [p]) hnd', ← List.append_cons]

theorem dictOfPairs_nodup {l : List (String × Nat)}
    (h : (l.map Prod.fst).Nodup) : dictOfPairs l = l :=
  foldl_dictSet_append l [] (by simpa using h)

theorem buildDict_eq : ∀ (l d : List (String × Nat)),
    (∀ p ∈ l, stripSpaces p.1 ≠ [] ∧ ∀ c ∈ stripSpaces p.1, c = '0' ∨ c = '1') →
    ((d ++ l.map convPair).map Prod.fst).Nodup →
    buildDict d l = some (d ++ l.map convPair) := by
  intro l
  induction l with
  | nil => intro d _ _; simp [buildDict]
  | cons p rest ih =>
    intro d hok hnd
    have hp := hok p (by simp)
    have hint : int2 (stripSpaces p.1) = some (binVal (stripSpaces p.1)) := by
      unfold int2
      rw [if_pos]
      exact ⟨hp.1, hp.2⟩
    have hk : convKey p.1 ∉ d.map Prod.fst := by
      intro hmem
      rw [List.map_cons, List.append_cons, List.map_append,
        List.nodup_append] at hnd
      have h2 := hnd.1
      rw [List.map_append, List.nodup_append] at h2
      exact h2.2.2 hmem (by simp [convPair])
    show (match int2 (stripSpaces p.1) with
      | none => none
      | some n => buildDict (dictSet d (natToDecStr n) p.2) rest) = _
    rw [hint]
    show buildDict (dictSet d (convKey p.1) p.2) rest = _
    rw [dictSet_not_mem hk]
    rw [List.map_cons, List.append_cons] at hnd
    have hres := ih (d ++ [convPair p])
      (fun q hq => hok q (by simp [hq])) hnd
    exact hres.trans (by rw [← List.append_cons, List.map_cons])

theorem convKey_inj_on {x y : List Char} {n : Nat}
    (hx : x.length = n) (hy : y.length = n)
    (hbx : ∀ c ∈ x, c = '0' ∨ c = '1') (hby : ∀ c ∈ y, c = '0' ∨ c = '1')
    (h : natToDecStr (binVal x) = natToDecStr (binVal y)) : x = y :=
  binVal_inj x y (by omega) hbx hby (natToDecStr_inj h)

theorem run_simulation_eq {counts : List (String × Nat)} {n : Nat}
    (hwf : WellFormedCounts counts n) :
    run_simulation counts =
      some ((List.insertionSort countGE counts).map convPair) := by
  obtain ⟨hn, hform, hdist⟩ := hwf
  have hperm : (List.insertionSort countGE counts).Perm counts :=
    List.perm_insertionSort countGE counts
  have hmem : ∀ p ∈ List.insertionSort countGE counts, p ∈ counts :=
    fun p hp => hperm.mem_iff.mp hp
  -- distinct stripped keys of the sorted list
  have hdistS : ((List.insertionSort countGE counts).map
      (fun p => stripSpaces p.1)).Nodup :=
    ((hperm.symm).map (fun p => stripSpaces p.1)).nodup hdist
  -- distinct raw keys of the sorted list
  have hdistRaw : ((List.insertionSort countGE counts).map Prod.fst).Nodup := by
    have hmm : ((List.insertionSort countGE counts).map Prod.fst).map stripSpaces =
        (List.insertionSort countGE counts).map (fun p => stripSpaces p.1) := by
      rw [List.map_map]; rfl
    exact List.Nodup.of_map stripSpaces (by rw [hmm]; exact hdistS)
  -- distinct converted keys of the sorted list
  have hdistConv : (((List.insertionSort countGE counts).map convPair).map
      Prod.fst).Nodup := by
    have hmm : ((List.insertionSort countGE counts).map convPair).map Prod.fst =
        ((List.insertionSort countGE counts).map (fun p => stripSpaces p.1)).map
          (fun l => natToDecStr (binVal l)) := by
      rw [List.map_map, List.map_map]; rfl
    rw [hmm]
    refine List.Nodup.map_on ?_ hdistS
    intro x hx y hy hxy
    obtain ⟨p, hp, rfl⟩ := List.mem_map.mp hx
    obtain ⟨q, hq, rfl⟩ := List.mem_map.mp hy
    exact convKey_inj_on (hform p (hmem p hp)).1 (hform q (hmem q hq)).1
      (hform p (hmem p hp)).2 (hform q (hmem q hq)).2 hxy
  -- the dict() wrap around sorted() is the identity here
  have hdict : sortedCounts counts = List.insertionSort countGE counts :=
    dictOfPairs_nodup hdistRaw
  show buildDict [] (sortedCounts counts) = _
  rw [hdict]
  refine buildDict_eq _ [] ?_ (by simpa using hdistConv)
  intro p hp
  refine ⟨?_, (hform p (hmem p hp)).2⟩
  have hl := (hform p (hmem p hp)).1
  intro hnil
  rw [hnil] at hl
  simp at hl
  omega

end DictLemmas

section FrameLemmas

theorem getD_set_ne (l : List Bool) (t i : Nat) (v : Bool) (h : i ≠ t) :
    (l.set t v).getD i false = l.getD i false := by
  simp [List.getD, List.getElem?_set_ne (Ne.symm h)]

theorem stepC_frame {g : Gate} {s s' : List Bool} {i : Nat}
    (hop : i ∉ g.operands) (h : stepC g s = some s') :
    s'.getD i false = s.getD i false := by
  cases g with
  | x t =>
    have ht : i ≠ t := by simpa [Gate.operands] using hop
    rw [show s' = s.set t (!(s.getD t false)) from by
      simpa [stepC] using h.symm]
    exact getD_set_ne s t i _ ht
  | cx c t =>
    have ht : i ≠ t := by simp [Gate.operands] at hop; exact hop.2
    rw [show s' = s.set t (xor (s.getD t false) (s.getD c false)) from by
      simpa [stepC] using h.symm]
    exact getD_set_ne s t i _ ht
  | ccx c1 c2 t =>
    have ht : i ≠ t := by simp [Gate.operands] at hop; exact hop.2.2
    rw [show s' = s.set t (xor (s.getD t false) ((s.getD c1 false) && (s.getD c2 false))) from by
      simpa [stepC] using h.symm]
    exact getD_set_ne s t i _ ht
  | swap a b =>
    have ha : i ≠ a := by simp [Gate.operands] at hop; exact hop.1
    have hb : i ≠ b := by simp [Gate.operands] at hop; exact hop.2
    rw [show s' = (s.set a (s.getD b false)).set b (s.getD a false) from by
      simpa [stepC] using h.symm]
    rw [getD_set_ne _ b i _ hb, getD_set_ne s a i _ ha]
  | barrier =>
    rw [show s' = s from by simpa [stepC] using h.symm]
  | h t => simp [stepC] at h
  | cp num den c t => simp [stepC] at h
  | measure q c => simp [stepC] at h

theorem runC_frame : ∀ (l : List Gate) (s s' : List Bool) (i : Nat),
    (∀ g ∈ l, i ∉ Gate.operands g) → runC l s = some s' →
    s'.getD i false = s.getD i false := by
  intro l
  induction l with
  | nil =>
    intro s s' i _ h
    simp [runC] at h
    rw [h]
  | cons g rest ih =>
    intro s s' i hop h
    cases hg : stepC g s with
    | none => rw [runC, hg] at h; exact absurd h (by simp)
    | some s1 =>
      rw [runC, hg] at h
      have h1 := stepC_frame (hop g (by simp)) hg
      have h2 := ih s1 s' i (fun g hgm => hop g (by simp [hgm])) h
      rw [h2, h1]

end FrameLemmas

section Claims

/-- C1: for every assignment of the control bits k0 (qubit 6) and k1
(qubit 7), running the gate sequence of `apply_controlled_operations`
classically from the work-register state with only qubit 0 set leaves the
work qubits 0-5 encoding `12 ^ (k0 + 2*k1) % 55` (1, 12, 34 or 23) and
leaves the control qubits unchanged. -/
theorem claim_C1 : ∀ k0 k1 : Bool,
    (runC (apply_controlled_operations []) (initWork k0 k1)).map
      (fun s => (workValue s, s.getD 6 false, s.getD 7 false)) =
    some (12 ^ ((cond k0 1 0) + 2 * (cond k1 1 0)) % 55, k0, k1) := by
  decide

set_option maxHeartbeats 4000000 in
/-- C2: `apply_inverse_qft` first swaps qubits 7,8 and 6,9, then applies
the Hadamard / controlled-phase cascade with angles `-pi/2`, `-pi/4`,
`-pi/8`, and the composed sequence acts on the counting register (qubit 6 as
low bit) as the 4-qubit inverse Fourier transform: each basis column `j`
equals, up to the uniform `1/4` normalisation, the vector of 16th roots of
unity `exp(-2*pi*i*j*k/16)`. -/
theorem claim_C2 :
    apply_inverse_qft [] =
      [Gate.swap 7 8, Gate.swap 6 9,
       Gate.h 6, Gate.cp (-1) 2 6 7,
       Gate.h 7, Gate.cp (-1) 4 6 8, Gate.cp (-1) 2 7 8,
       Gate.h 8, Gate.cp (-1) 8 6 9, Gate.cp (-1) 4 7 9, Gate.cp (-1) 2 8 9,
       Gate.h 9, Gate.barrier] ∧
    ∀ j : Fin 16,
      (runU (apply_inverse_qft []) (basisState j.val)).map
        (fun s => (List.range 16).map (fun k => canonList (s k))) =
      some ((List.range 16).map (fun k => canonList (invQFTcolumn j.val k))) :=
  ⟨rfl, by decide⟩

/-- C3: on any well-formed 4-bit counts dictionary, `run_simulation` returns
one entry per measured outcome, keyed by the decimal string of the
space-stripped key parsed base 2 (a value below 16), with the count
unchanged, in non-increasing order of count. -/
theorem claim_C3 (counts : List (String × Nat))
    (h : WellFormedCounts counts 4) :
    run_simulation counts = some (convertedCounts counts) ∧
    (convertedCounts counts).length = counts.length ∧
    (∀ p ∈ counts,
      (natToDecStr (binVal (stripSpaces p.1)), p.2) ∈ convertedCounts counts ∧
      binVal (stripSpaces p.1) < 16) ∧
    (convertedCounts counts).Pairwise (fun a b => b.2 ≤ a.2) := by
  have hperm : (List.insertionSort countGE counts).Perm counts :=
    List.perm_insertionSort countGE counts
  refine ⟨run_simulation_eq h, ?_, ?_, ?_⟩
  · unfold convertedCounts
    rw [List.length_map]
    exact hperm.length_eq
  · intro p hp
    constructor
    · exact List.mem_map.mpr ⟨p, hperm.mem_iff.mpr hp, rfl⟩
    · have hl := (h.2.1 p hp).1
      have := binVal_lt (stripSpaces p.1)
      rw [hl] at this
      norm_num at this
      exact this
  · have hs : List.Sorted countGE (List.insertionSort countGE counts) :=
      List.sorted_insertionSort countGE counts
    exact List.Pairwise.map convPair (fun a b hab => hab) hs

/-- C3 witness: a concrete well-formed counts dictionary, processed. -/
theorem claim_C3_witness :
    run_simulation [("0101", 10), ("1100", 30)] =
      some [("12", 30), ("5", 10)] :=
  ((claim_C3 [("0101", 10), ("1100", 30)] (by decide)).1).trans (by decide)

/-- C4: whenever `main` completes, it has built the circuit by running the
four circuit stages exactly once each, in order (the circuit is the
concatenation of the four stage blocks, and each stage only appends its
fixed block), then run the simulation once on that circuit and plotted
once. -/
theorem claim_C4 (simCounts res : List (String × Nat)) (effs : List Effect)
    (h : main simCounts = some (res, effs)) :
    main_circuit = initialize_circuit [] ++ apply_controlled_operations [] ++
      apply_inverse_qft [] ++ measure_circuit [] ∧
    (∀ c, initialize_circuit c = c ++ initialize_circuit []) ∧
    (∀ c, apply_controlled_operations c = c ++ apply_controlled_operations []) ∧
    (∀ c, apply_inverse_qft c = c ++ apply_inverse_qft []) ∧
    (∀ c, measure_circuit c = c ++ measure_circuit []) ∧
    run_simulation simCounts = some res ∧
    effs = [Effect.runSim main_circuit, Effect.drawCircuit main_circuit,
      Effect.showPlot res] := by
  refine ⟨by decide, fun c => by simp [initialize_circuit],
    fun c => by simp [apply_controlled_operations],
    fun c => by simp [apply_inverse_qft],
    fun c => by simp [measure_circuit], ?_, ?_⟩
  · unfold main at h
    cases hrs : run_simulation simCounts with
    | none => rw [hrs] at h; exact absurd h (by simp)
    | some r =>
      rw [hrs] at h
      simp only [Option.some.injEq, Prod.mk.injEq] at h
      rw [h.1]
  · unfold main at h
    cases hrs : run_simulation simCounts with
    | none => rw [hrs] at h; exact absurd h (by simp)
    | some r =>
      rw [hrs] at h
      simp only [Option.some.injEq, Prod.mk.injEq] at h
      rw [← h.2, h.1]
      rfl

/-- C4 witness: a concrete completed run of the pipeline. -/
theorem claim_C4_witness :
    run_simulation [("0101", 10)] = some [("5", 10)] :=
  (claim_C4 [("0101", 10)] [("5", 10)]
    [Effect.runSim main_circuit, Effect.drawCircuit main_circuit,
      Effect.showPlot [("5", 10)]] (by decide)).2.2.2.2.2.1

/-- C5: `measure_circuit` appends exactly the four measurements mapping
qubit 6+i to classical bit i, these are the only measurements in the full
circuit, and the classical register has exactly four bits. -/
theorem claim_C5 :
    (∀ circuit, measure_circuit circuit = circuit ++
      [Gate.measure 6 0, Gate.measure 7 1, Gate.measure 8 2, Gate.measure 9 3]) ∧
    main_circuit.filter (fun g => isMeasure g) =
      [Gate.measure 6 0, Gate.measure 7 1, Gate.measure 8 2, Gate.measure 9 3] ∧
    (create_quantum_registers 10 4).2.1 = 4 :=
  ⟨fun _ => rfl, by decide, rfl⟩

/-- C6 counterexample: `initialize_circuit` appends the gate `x(q[0])`,
which is none of the kinds cx, ccx, cp, h, swap (nor a barrier or a
measurement), so the claimed gate set does not cover the circuit-building
stages. -/
theorem claim_C6_counterexample :
    Gate.x 0 ∈ initialize_circuit [] ∧ ¬ ClaimedGateKind (Gate.x 0) := by
  refine ⟨by decide, ?_⟩
  intro h
  rcases h with ⟨c, t, h⟩ | ⟨c1, c2, t, h⟩ | ⟨num, den, c, t, h⟩ | ⟨t, h⟩ |
    ⟨a, b, h⟩ | h | ⟨q, c, h⟩ <;> simp at h

/-- C6 (amended): every gate appended by `initialize_circuit`,
`apply_controlled_operations` and `apply_inverse_qft` is one of x, cx, ccx,
cp, h, or swap (or a barrier). -/
theorem claim_C6 : ∀ g : Gate,
    (g ∈ initialize_circuit [] ∨ g ∈ apply_controlled_operations [] ∨
      g ∈ apply_inverse_qft []) →
    (∃ t, g = Gate.x t) ∨ ClaimedGateKind g := by
  intro g hg
  rcases hg with hg | hg | hg <;> fin_cases hg <;>
    first
      | exact Or.inl ⟨_, rfl⟩
      | exact Or.inr (Or.inl ⟨_, _, rfl⟩)
      | exact Or.inr (Or.inr (Or.inl ⟨_, _, _, rfl⟩))
      | exact Or.inr (Or.inr (Or.inr (Or.inl ⟨_, _, _, _, rfl⟩)))
      | exact Or.inr (Or.inr (Or.inr (Or.inr (Or.inl ⟨_, rfl⟩))))
      | exact Or.inr (Or.inr (Or.inr (Or.inr (Or.inr (Or.inl ⟨_, _, rfl⟩)))))
      | exact Or.inr (Or.inr (Or.inr (Or.inr (Or.inr (Or.inr (Or.inl rfl))))))

/-- C6 witness: the first controlled gate is in the amended gate set. -/
theorem claim_C6_witness :
    (∃ t, Gate.cx 6 3 = Gate.x t) ∨ ClaimedGateKind (Gate.cx 6 3) :=
  claim_C6 (Gate.cx 6 3) (Or.inr (Or.inl (by decide)))

/-- C7: whenever `main` completes, its externally visible effects are
exactly one simulator run on the built circuit followed by the two displays
of `visualize_results` (the circuit drawing and the result histogram); in
particular every effect is one of these three, and there is no file or
input effect. -/
theorem claim_C7 (simCounts res : List (String × Nat)) (effs : List Effect)
    (h : main simCounts = some (res, effs)) :
    effs = Effect.runSim main_circuit :: visualize_results main_circuit res ∧
    visualize_results main_circuit res =
      [Effect.drawCircuit main_circuit, Effect.showPlot res] ∧
    ∀ e ∈ effs, e = Effect.runSim main_circuit ∨
      e = Effect.drawCircuit main_circuit ∨ e = Effect.showPlot res := by
  have heff : effs = Effect.runSim main_circuit ::
      visualize_results main_circuit res := by
    unfold main at h
    cases hrs : run_simulation simCounts with
    | none => rw [hrs] at h; exact absurd h (by simp)
    | some r =>
      rw [hrs] at h
      simp only [Option.some.injEq, Prod.mk.injEq] at h
      rw [← h.2, h.1]
      rfl
  refine ⟨heff, rfl, ?_⟩
  intro e he
  rw [heff] at he
  simp [visualize_results] at he
  rcases he with rfl | rfl | rfl
  · exact Or.inl rfl
  · exact Or.inr (Or.inl rfl)
  · exact Or.inr (Or.inr rfl)

/-- C7 witness: a concrete completed run and its effect trace. -/
theorem claim_C7_witness :
    visualize_results main_circuit [("15", 7)] =
      [Effect.drawCircuit main_circuit, Effect.showPlot [("15", 7)]] :=
  (claim_C7 [("1111", 7)] [("15", 7)]
    [Effect.runSim main_circuit, Effect.drawCircuit main_circuit,
      Effect.showPlot [("15", 7)]] (by decide)).2.1

/-- C8: with the default arguments that `main` uses,
`create_quantum_registers` returns a 10-qubit quantum register, a 4-bit
classical register and an empty circuit over them. -/
theorem claim_C8 :
    create_quantum_registers 10 4 = (10, 4, ([] : List Gate)) :=
  rfl

/-- C9: on any well-formed counts dictionary (distinct binary keys of one
common positive length), the conversion of `run_simulation` maps distinct
keys to distinct decimal keys, keeps every entry with its count unchanged,
loses and merges nothing, and preserves the total number of shots. -/
theorem claim_C9 (counts : List (String × Nat)) (n : Nat)
    (h : WellFormedCounts counts n) :
    run_simulation counts = some (convertedCounts counts) ∧
    ((convertedCounts counts).map Prod.fst).Nodup ∧
    (∀ p ∈ counts, (natToDecStr (binVal (stripSpaces p.1)), p.2) ∈
      convertedCounts counts) ∧
    (convertedCounts counts).length = counts.length ∧
    ((convertedCounts counts).map Prod.snd).sum =
      (counts.map Prod.snd).sum := by
  have hperm : (List.insertionSort countGE counts).Perm counts :=
    List.perm_insertionSort countGE counts
  obtain ⟨hn, hform, hdist⟩ := h
  have hdistS : ((List.insertionSort countGE counts).map
      (fun p => stripSpaces p.1)).Nodup :=
    ((hperm.symm).map (fun p => stripSpaces p.1)).nodup hdist
  refine ⟨run_simulation_eq ⟨hn, hform, hdist⟩, ?_, ?_, ?_, ?_⟩
  · have hmm : (convertedCounts counts).map Prod.fst =
        ((List.insertionSort countGE counts).map (fun p => stripSpaces p.1)).map
          (fun l => natToDecStr (binVal l)) := by
      unfold convertedCounts
      rw [List.map_map, List.map_map]
      rfl
    rw [hmm]
    refine List.Nodup.map_on ?_ hdistS
    intro x hx y hy hxy
    obtain ⟨p, hp, rfl⟩ := List.mem_map.mp hx
    obtain ⟨q, hq, rfl⟩ := List.mem_map.mp hy
    exact convKey_inj_on (hform p (hperm.mem_iff.mp hp)).1
      (hform q (hperm.mem_iff.mp hq)).1
      (hform p (hperm.mem_iff.mp hp)).2
      (hform q (hperm.mem_iff.mp hq)).2 hxy
  · intro p hp
    exact List.mem_map.mpr ⟨p, hperm.mem_iff.mpr hp, rfl⟩
  · unfold convertedCounts
    rw [List.length_map]
    exact hperm.length_eq
  · have hmm : (convertedCounts counts).map Prod.snd =
        (List.insertionSort countGE counts).map Prod.snd := by
      unfold convertedCounts
      rw [List.map_map]
      rfl
    rw [hmm]
    exact (hperm.map Prod.snd).sum_eq

/-- C9 witness: a concrete well-formed 3-bit counts dictionary. -/
theorem claim_C9_witness :
    run_simulation [("101", 5), ("011", 7)] = some [("3", 7), ("5", 5)] ∧
    (([("3", 7), ("5", 5)] : List (String × Nat)).map Prod.snd).sum =
      (([("101", 5), ("011", 7)] : List (String × Nat)).map Prod.snd).sum := by
  have h := claim_C9 [("101", 5), ("011", 7)] 3 (by decide)
  exact ⟨h.1.trans (by decide),
    ((by decide : ([("3", 7), ("5", 5)] : List (String × Nat)).map Prod.snd =
        (convertedCounts [("101", 5), ("011", 7)]).map Prod.snd) ▸
      h.2.2.2.2)⟩

/-- C10: `apply_controlled_operations` touches only qubits 0 through 7:
every operand of every gate it appends is below 8, and hence a classical
run of its gate list leaves qubits 8 and 9 unchanged for every start
state. -/
theorem claim_C10 :
    (∀ g ∈ apply_controlled_operations [], ∀ q ∈ Gate.operands g, q < 8) ∧
    ∀ s s', runC (apply_controlled_operations []) s = some s' →
      s'.getD 8 false = s.getD 8 false ∧ s'.getD 9 false = s.getD 9 false := by
  refine ⟨by decide, ?_⟩
  intro s s' h
  exact ⟨runC_frame _ s s' 8 (by decide) h, runC_frame _ s s' 9 (by decide) h⟩

/-- C10 witness: a concrete classical run of the controlled block. -/
theorem claim_C10_witness :
    runC (apply_controlled_operations []) (List.replicate 10 true) =
      some [true, false, false, false, true, true, true, true, true, true] ∧
    ([true, false, false, false, true, true, true, true, true, true] :
      List Bool).getD 8 false = (List.replicate 10 true).getD 8 false := by
  have h : runC (apply_controlled_operations []) (List.replicate 10 true) =
      some [true, false, false, false, true, true, true, true, true, true] := by
    decide
  exact ⟨h, (claim_C10.2 _ _ h).1⟩

end Claims

end Factoring55
